import Mathlib

/-!
Shallow embedding of the DJ-analysis parts of the yandex-music-downloader
repository, together with theorems settling the frozen claims about them.

Python floats are modelled as exact rationals, Python ints as Lean integers
(Python integers are unbounded), fallible Python code (code that can raise)
as Option-returning functions where the value none models a raised
exception, and Python dict-of-list state as association lists that preserve
insertion order, matching Python dict ordering semantics.
-/

/- ## Generic helpers shared by several embedded functions -/

/-- Model of numpy clip: max(lo, min(x, hi)). -/
def clampQ (x lo hi : ℚ) : ℚ := max lo (min x hi)

/-- Round to nearest integer, ties to even: the rounding used by Python
round() on exact values. -/
def roundHalfEvenInt (x : ℚ) : ℤ :=
  let f := ⌊x⌋
  if x - f < 1 / 2 then f
  else if 1 / 2 < x - f then f + 1
  else if f % 2 = 0 then f else f + 1

/-- Model of Python round(x, k): round to k decimal digits, ties to even. -/
def pyRound (x : ℚ) (k : ℕ) : ℚ :=
  (roundHalfEvenInt (x * 10 ^ k) : ℚ) / 10 ^ k

/-- Model of Python int() applied to a nonnegative or negative float:
truncation toward zero. -/
def pyTrunc (x : ℚ) : ℤ := if 0 ≤ x then ⌊x⌋ else -⌊-x⌋

/-- Mean of a list of rationals, as numpy mean computes it on a
non-empty array. -/
def meanQ (l : List ℚ) : ℚ := l.sum / l.length

/-- Consecutive differences of a list, as numpy diff computes them. -/
def listDiffs : List ℚ → List ℚ
  | [] => []
  | [_] => []
  | a :: b :: rest => (b - a) :: listDiffs (b :: rest)

/-- Auxiliary decimal-digit accumulator for the Python int() parser. -/
def parseNatAux : List Char → ℕ → Option ℕ
  | [], acc => some acc
  | c :: cs, acc =>
    if c.isDigit then parseNatAux cs (acc * 10 + (c.toNat - 48)) else none

/-- Model of Python int(s) on a string: an optional sign followed by
decimal digits; none models the ValueError raised on any other input. -/
def pyParseInt (s : String) : Option ℤ :=
  match s.data with
  | [] => none
  | '-' :: cs =>
    if cs = [] then none else (parseNatAux cs 0).map (fun n => -(n : ℤ))
  | '+' :: cs =>
    if cs = [] then none else (parseNatAux cs 0).map (fun n => (n : ℤ))
  | cs => (parseNatAux cs 0).map (fun n => (n : ℤ))

/- ## Spec-side Camelot wheel vocabulary

These definitions follow the spec's words (wheel positions 1..12 with a
letter, +1 / -1 neighbours wrapping 12 to 1 and 1 to 12, opposite letter)
and are used to state refinement claims against the source embeddings. -/

/-- The Camelot code string for wheel position n and letter l. -/
def camelotString (n : ℕ) (l : String) : String := toString n ++ l

/-- Spec wording: the +1 wheel neighbour, wrapping position 12 to 1. -/
def wheelPlus1 (n : ℕ) : ℕ := if n = 12 then 1 else n + 1

/-- Spec wording: the -1 wheel neighbour, wrapping position 1 to 12. -/
def wheelMinus1 (n : ℕ) : ℕ := if n = 1 then 12 else n - 1

/-- Spec wording: the opposite wheel letter (relative major/minor). -/
def oppLetter (l : String) : String := if l = "A" then "B" else "A"

/-- The 24 defined Camelot codes. -/
def camelotCodes : List String :=
  ["1A", "2A", "3A", "4A", "5A", "6A", "7A", "8A", "9A", "10A", "11A", "12A",
   "1B", "2B", "3B", "4B", "5B", "6B", "7B", "8B", "9B", "10B", "11B", "12B"]

/- ## Embedding of apps/mcp/src/dj_ai_mcp/server.py `_get_compatible_camelot` -/

/-- Embedding of `_get_compatible_camelot`. The value none models the
ValueError raised by int(camelot[:-1]) on a leading part that is not an
integer; Python % on ints matches Lean Int.emod for a positive modulus. -/
def getCompatibleCamelot (camelot : String) : Option (List String) :=
  if camelot = "" ∨ camelot.length < 2 then some []
  else
    match pyParseInt (String.mk camelot.data.dropLast) with
    | none => none
    | some num =>
      let letter := String.mk (camelot.data.drop (camelot.data.length - 1))
      let nextNum := num % 12 + 1
      let prevNum := (num - 2) % 12 + 1
      let otherLetter := if letter = "A" then "B" else "A"
      some [camelot, toString nextNum ++ letter, toString prevNum ++ letter,
            toString num ++ otherLetter]

/- ## Embedding of packages/core/src/dj_ai_studio/yandex/converter.py -/

/-- Embedding of `key_to_camelot`: the minor map is consulted first, then
the major map, with fallback "8B", exactly as in the source dicts. -/
def key_to_camelot (key : String) : String :=
  if key = "Am" then "8A" else if key = "Em" then "9A"
  else if key = "Bm" then "10A" else if key = "F#m" then "11A"
  else if key = "Gbm" then "11A" else if key = "C#m" then "12A"
  else if key = "Dbm" then "12A" else if key = "G#m" then "1A"
  else if key = "Abm" then "1A" else if key = "D#m" then "2A"
  else if key = "Ebm" then "2A" else if key = "A#m" then "3A"
  else if key = "Bbm" then "3A" else if key = "Fm" then "4A"
  else if key = "Cm" then "5A" else if key = "Gm" then "6A"
  else if key = "Dm" then "7A"
  else if key = "C" then "8B" else if key = "G" then "9B"
  else if key = "D" then "10B" else if key = "A" then "11B"
  else if key = "E" then "12B" else if key = "B" then "1B"
  else if key = "F#" then "2B" else if key = "Gb" then "2B"
  else if key = "Db" then "3B" else if key = "C#" then "3B"
  else if key = "Ab" then "4B" else if key = "G#" then "4B"
  else if key = "Eb" then "5B" else if key = "D#" then "5B"
  else if key = "Bb" then "6B" else if key = "A#" then "6B"
  else if key = "F" then "7B"
  else "8B"

/-- Embedding of `camelot_to_key`: the camelot_map dict lookup with
default "C". -/
def camelot_to_key (camelot : String) : String :=
  if camelot = "1A" then "G#m" else if camelot = "2A" then "D#m"
  else if camelot = "3A" then "A#m" else if camelot = "4A" then "Fm"
  else if camelot = "5A" then "Cm" else if camelot = "6A" then "Gm"
  else if camelot = "7A" then "Dm" else if camelot = "8A" then "Am"
  else if camelot = "9A" then "Em" else if camelot = "10A" then "Bm"
  else if camelot = "11A" then "F#m" else if camelot = "12A" then "C#m"
  else if camelot = "1B" then "B" else if camelot = "2B" then "F#"
  else if camelot = "3B" then "Db" else if camelot = "4B" then "Ab"
  else if camelot = "5B" then "Eb" else if camelot = "6B" then "Bb"
  else if camelot = "7B" then "F" else if camelot = "8B" then "C"
  else if camelot = "9B" then "G" else if camelot = "10B" then "D"
  else if camelot = "11B" then "A" else if camelot = "12B" then "E"
  else "C"

/- ## Embedding of packages/core/src/dj_ai_studio/analysis/energy.py

The librosa feature extraction (rms, spectral centroid, spectral rolloff,
zero crossing rate) is digital signal processing over float arrays; the
embedding starts from the four extracted feature means, which is where the
spec's claims about calculate_energy begin. -/

/-- Normalized loudness: np.clip((rms_db + 60) / 60, 0, 1). -/
def energyRmsNorm (rmsDb : ℚ) : ℚ := clampQ ((rmsDb + 60) / 60) 0 1

/-- Normalized brightness: np.clip((centroid_mean - 500) / 7500, 0, 1). -/
def energyCentroidNorm (centroidMean : ℚ) : ℚ :=
  clampQ ((centroidMean - 500) / 7500) 0 1

/-- Normalized spread: np.clip((rolloff_mean - 1000) / 14000, 0, 1). -/
def energyRolloffNorm (rolloffMean : ℚ) : ℚ :=
  clampQ ((rolloffMean - 1000) / 14000) 0 1

/-- Normalized percussiveness: np.clip((zcr_mean - 0.02) / 0.13, 0, 1). -/
def energyZcrNorm (zcrMean : ℚ) : ℚ :=
  clampQ ((zcrMean - 0.02) / 0.13) 0 1

/-- The weighted raw score of calculate_energy. -/
def energyRawScore (rmsDb centroidMean rolloffMean zcrMean : ℚ) : ℚ :=
  0.4 * energyRmsNorm rmsDb + 0.25 * energyCentroidNorm centroidMean
    + 0.20 * energyRolloffNorm rolloffMean + 0.15 * energyZcrNorm zcrMean

/-- The returned 1-10 energy level: int(np.clip(raw_score * 9 + 1, 1, 10)).
Python int() truncates toward zero. -/
def calculateEnergyLevel (rmsDb centroidMean rolloffMean zcrMean : ℚ) : ℤ :=
  pyTrunc (clampQ (energyRawScore rmsDb centroidMean rolloffMean zcrMean * 9 + 1) 1 10)

/- ## Embedding of packages/core/src/dj_ai_studio/analysis/bpm.py

The librosa beat tracker is not embeddable; detect_bpm is embedded from
the point where the tracker has produced a tempo and the beat times, which
is where the spec's claims about the confidence computation begin. -/

/-- The confidence computed by detect_bpm before the final rounding:
1 - clip(mean(|interval - expected| / expected), 0, 1) over the inter-beat
intervals when more than one beat was detected, else 0. -/
def bpmConfidenceRaw (tempo : ℚ) (beatTimes : List ℚ) : ℚ :=
  if 1 < beatTimes.length then
    let expected := 60 / tempo
    let devs := (listDiffs beatTimes).map (fun i => |i - expected| / expected)
    1 - clampQ (meanQ devs) 0 1
  else 0

/-- The (bpm, confidence) pair returned by detect_bpm:
round(tempo, 1) and round(confidence, 2). -/
def detectBpmResult (tempo : ℚ) (beatTimes : List ℚ) : ℚ × ℚ :=
  (pyRound tempo 1, pyRound (bpmConfidenceRaw tempo beatTimes) 2)

/- ## Embedding of packages/core/src/dj_ai_studio/analysis/key.py

The chroma extraction and the 24 profile correlations are signal
processing; detect_key's confidence is embedded from the list of the 24
correlation scores, which is where the spec's claim begins. -/

/-- Insert into a descending-sorted list, keeping it descending. -/
def insertDesc (x : ℚ) : List ℚ → List ℚ
  | [] => [x]
  | y :: ys => if y < x then x :: y :: ys else y :: insertDesc x ys

/-- Model of Python sorted(values, reverse=True) on rationals. -/
def sortDesc (l : List ℚ) : List ℚ := l.foldr insertDesc []

/-- The confidence computed by detect_key from the correlation scores:
with the scores sorted descending, (s0 - s1) / (s0 + 1e-6) scaled by 2 and
clamped into [0, 1] when at least two scores exist, else 0; the result is
then rounded to two decimals. -/
def keyConfidence (corrs : List ℚ) : ℚ :=
  match sortDesc corrs with
  | s0 :: s1 :: _ =>
    pyRound (min 1 (max 0 ((s0 - s1) / (s0 + 1 / 1000000) * 2))) 2
  | _ => pyRound 0 2

/- ## Embedding of apps/api/src/dj_ai_api/routers/analysis.py `analyze_batch`

The per-track work of analyze_track (database lookup, Yandex download,
audio analysis, commit) is abstracted as a function from a track id and a
state to either an error (HTTPException) or a result together with the
updated state; every raise in analyze_track happens before any track state
is mutated and the commit happens on success, so an error leaves the state
unchanged in the model. -/

/-- The sequential loop of analyze_batch: process ids in order, appending
each success to the accumulator; `except HTTPException: pass` drops
failures and continues. -/
def processBatch {ι σ R E : Type} (f : ι → σ → Except E (R × σ)) :
    List ι → List R → σ → List R × σ
  | [], acc, s => (acc, s)
  | tid :: rest, acc, s =>
    match f tid s with
    | Except.ok (r, s2) => processBatch f rest (acc ++ [r]) s2
    | Except.error _ => processBatch f rest acc s

/-- Embedding of analyze_batch: reject requests of more than 10 track ids
with HTTP 400 before touching any track, else run the sequential loop. -/
def analyzeBatch {ι σ R E : Type} (f : ι → σ → Except E (R × σ))
    (trackIds : List ι) (s : σ) : Except String (List R) × σ :=
  if 10 < trackIds.length then
    (Except.error "Maximum 10 tracks per batch", s)
  else
    let p := processBatch f trackIds [] s
    (Except.ok p.1, p.2)

/- ## Embedding of scripts/dj/reorder_by_camelot.py -/

/-- The CAMELOT_TRANSITIONS dict: code to [perfect match, energy boost,
energy decrease, mood change]; dict .get with default [] for unknown
codes. -/
def CAMELOT_TRANSITIONS (c : String) : List String :=
  if c = "1A" then ["1A", "2A", "12A", "1B"]
  else if c = "2A" then ["2A", "3A", "1A", "2B"]
  else if c = "3A" then ["3A", "4A", "2A", "3B"]
  else if c = "4A" then ["4A", "5A", "3A", "4B"]
  else if c = "5A" then ["5A", "6A", "4A", "5B"]
  else if c = "6A" then ["6A", "7A", "5A", "6B"]
  else if c = "7A" then ["7A", "8A", "6A", "7B"]
  else if c = "8A" then ["8A", "9A", "7A", "8B"]
  else if c = "9A" then ["9A", "10A", "8A", "9B"]
  else if c = "10A" then ["10A", "11A", "9A", "10B"]
  else if c = "11A" then ["11A", "12A", "10A", "11B"]
  else if c = "12A" then ["12A", "1A", "11A", "12B"]
  else if c = "1B" then ["1B", "2B", "12B", "1A"]
  else if c = "2B" then ["2B", "3B", "1B", "2A"]
  else if c = "3B" then ["3B", "4B", "2B", "3A"]
  else if c = "4B" then ["4B", "5B", "3B", "4A"]
  else if c = "5B" then ["5B", "6B", "4B", "5A"]
  else if c = "6B" then ["6B", "7B", "5B", "6A"]
  else if c = "7B" then ["7B", "8B", "6B", "7A"]
  else if c = "8B" then ["8B", "9B", "7B", "8A"]
  else if c = "9B" then ["9B", "10B", "8B", "9A"]
  else if c = "10B" then ["10B", "11B", "9B", "10A"]
  else if c = "11B" then ["11B", "12B", "10B", "11A"]
  else if c = "12B" then ["12B", "1B", "11B", "12A"]
  else []

/-- The key-compatibility part of calculate_compatibility_score for two
truthy codes: 60 for identical, 50 for transitions[:2], 40 for
transitions[2:3], then the comparison against transitions[3], which raises
IndexError (modelled as none) when the current code is not in the table
(transitions is then the empty list). -/
def camelotKeyScore (c n : String) : Option ℤ :=
  let ts := CAMELOT_TRANSITIONS c
  if n = c then some 60
  else if n ∈ ts.take 2 then some 50
  else if n ∈ (ts.drop 2).take 1 then some 40
  else
    match ts.get? 3 with
    | some t3 => some (if n = t3 then 45 else 10)
    | none => none

/-- The BPM step function of calculate_compatibility_score, applied to the
absolute BPM difference. -/
def bpmDiffScore (d : ℚ) : ℤ :=
  if d = 0 then 40
  else if d ≤ 2 then 35
  else if d ≤ 4 then 25
  else if d ≤ 6 then 15
  else 5

/-- The BPM part of calculate_compatibility_score: guarded by Python
truthiness of both BPMs (None and 0.0 are falsy and contribute 0). -/
def bpmPairScore (cb nb : Option ℚ) : ℤ :=
  match cb, nb with
  | some a, some b => if a = 0 ∨ b = 0 then 0 else bpmDiffScore |b - a|
  | _, _ => 0

/-- Embedding of calculate_compatibility_score. The key part runs only
when both codes are truthy (present and non-empty); none models the
IndexError reachable inside the key part. -/
def calculateCompatibilityScore (cc nc : Option String) (cb nb : Option ℚ) :
    Option ℤ :=
  let keyOpt : Option ℤ :=
    match cc, nc with
    | some c, some n => if c = "" ∨ n = "" then some 0 else camelotKeyScore c n
    | _, _ => some 0
  keyOpt.map (fun kp => kp + bpmPairScore cb nb)

/-- A track as used by reorder_by_camelot.py: its position, and optional
camelot code and BPM metadata. -/
structure Track where
  position : ℕ
  camelot : Option String
  bpm : Option ℚ
deriving DecidableEq, Repr

/-- The score a candidate track receives inside the chain-building loop:
calculate_compatibility_score of the current track against the candidate's
group key and BPM, plus the progressive bonus (whose comparison
track.get("bpm", 0) > current_bpm raises TypeError, modelled none, when
the current BPM is missing) and the plateau bonus. -/
def loopCandidateScore (strategy : String) (cc : Option String)
    (cb : Option ℚ) (k : String) (t : Track) : Option ℤ :=
  match calculateCompatibilityScore cc (some k) cb t.bpm with
  | none => none
  | some s =>
    let afterProg : Option ℤ :=
      if strategy = "progressive" then
        match cb with
        | none => none
        | some c => some (if c < t.bpm.getD 0 then s + 10 else s)
      else some s
    afterProg.map (fun s2 =>
      if strategy = "plateau" ∧ t.bpm = cb ∧ cc = some k then s2 + 15 else s2)

/-- Python truthiness of the camelot field: present and non-empty. -/
def trackCamelotKey (t : Track) : Option String :=
  match t.camelot with
  | some s => if s = "" then none else some s
  | none => none

/-- Append a track to the group of key k in an insertion-ordered
association list, creating the group at the end if absent (defaultdict
with ordered dict semantics). -/
def addToGroups : List (String × List Track) → String → Track →
    List (String × List Track)
  | [], k, t => [(k, [t])]
  | (k2, l) :: gs, k, t =>
    if k2 = k then (k2, l ++ [t]) :: gs else (k2, l) :: addToGroups gs k t

/-- The by_camelot grouping: only tracks with a truthy camelot code are
grouped; the rest are dropped. -/
def groupByCamelot (tracks : List Track) : List (String × List Track) :=
  tracks.foldl
    (fun gs t =>
      match trackCamelotKey t with
      | none => gs
      | some k => addToGroups gs k t)
    []

/-- Dict lookup in the insertion-ordered association list. -/
def lookupGroup : List (String × List Track) → String → Option (List Track)
  | [], _ => none
  | (k, l) :: gs, key => if k = key then some l else lookupGroup gs key

/-- Python max(by_camelot.keys(), key=len of group): the first group with
maximal length (max keeps the first maximal element); none models the
ValueError max raises on an empty dict. -/
def pickPopular : List (String × List Track) → Option (String × List Track)
  | [] => none
  | g :: gs =>
    some (gs.foldl (fun best p => if best.2.length < p.2.length then p else best) g)

/-- The head of the most popular group together with its key; none models
ValueError on an empty dict or IndexError popping an empty group. -/
def pickPopularHead (gs : List (String × List Track)) : Option (Track × String) :=
  match pickPopular gs with
  | none => none
  | some (k, l) =>
    match l with
    | t :: _ => some (t, k)
    | [] => none

/-- The starting-track choice: a truthy start_key found in by_camelot pops
the head of its group, otherwise the most popular group is used. -/
def initPick (gs : List (String × List Track)) (startKey : Option String) :
    Option (Track × String) :=
  match startKey with
  | some sk =>
    if sk = "" then pickPopularHead gs
    else
      match lookupGroup gs sk with
      | some l =>
        match l with
        | t :: _ => some (t, sk)
        | [] => none
      | none => pickPopularHead gs
  | none => pickPopularHead gs

/-- Drop the head of the group with key k: list.pop(0). -/
def eraseHeadAt (gs : List (String × List Track)) (k : String) :
    List (String × List Track) :=
  gs.map (fun p => if p.1 = k then (p.1, p.2.tail) else p)

/-- Remove the first occurrence of a track from the group with key k:
list.remove(track). -/
def eraseTrackAt (gs : List (String × List Track)) (k : String) (t : Track) :
    List (String × List Track) :=
  gs.map (fun p => if p.1 = k then (p.1, p.2.erase t) else p)

/-- The mutable state of the chain-building while loop. -/
structure ChainState where
  total : ℕ
  chain : List Track
  groups : List (String × List Track)
  used : List ℕ
  current : Track
deriving Repr

/-- The inner candidate scan of one group: skip used positions, score each
candidate (none propagates a raised exception), keep the strictly best
(score > best_score). -/
def scanGroup (strategy : String) (cc : Option String) (cb : Option ℚ)
    (used : List ℕ) (k : String) :
    List Track → ℤ × Option (Track × String) →
      Option (ℤ × Option (Track × String))
  | [], best => some best
  | t :: ts, best =>
    if t.position ∈ used then scanGroup strategy cc cb used k ts best
    else
      match loopCandidateScore strategy cc cb k t with
      | none => none
      | some s =>
        scanGroup strategy cc cb used k ts
          (if best.1 < s then (s, some (t, k)) else best)

/-- The full best-candidate search over all groups in insertion order. -/
def findBestTrack (strategy : String) (cc : Option String) (cb : Option ℚ)
    (used : List ℕ) :
    List (String × List Track) → ℤ × Option (Track × String) →
      Option (ℤ × Option (Track × String))
  | [], best => some best
  | (k, l) :: gs, best =>
    match scanGroup strategy cc cb used k l best with
    | none => none
    | some b2 => findBestTrack strategy cc cb used gs b2

/-- The fallback of the loop: the first not-yet-used track of the first
group that still has one. -/
def fallbackPick (used : List ℕ) :
    List (String × List Track) → Option (Track × String)
  | [] => none
  | (k, l) :: gs =>
    match l.filter (fun t => decide (t.position ∉ used)) with
    | [] => fallbackPick used gs
    | t :: _ => some (t, k)

/-- Append the chosen track to the chain, mark its position used, remove
it from its group, and make it the current track. -/
def advanceState (st : ChainState) (t : Track) (k : String) : ChainState :=
  { total := st.total, chain := st.chain ++ [t],
    groups := eraseTrackAt st.groups k t,
    used := st.used ++ [t.position], current := t }

/-- One iteration of the while body. The value none models either a raised
exception inside the scoring, or an iteration that places no track at all,
after which the Python loop would repeat the identical iteration forever
(the while condition only tests the chain length). -/
def stepState (strategy : String) (st : ChainState) : Option ChainState :=
  match findBestTrack strategy st.current.camelot st.current.bpm st.used
      st.groups (-1, none) with
  | none => none
  | some (_, some (t, k)) => some (advanceState st t k)
  | some (_, none) =>
    match fallbackPick st.used st.groups with
    | some (t, k) => some (advanceState st t k)
    | none => none

/-- The while loop with explicit fuel. Each productive iteration grows the
chain by one, so fuel equal to the number of input tracks is enough for
every terminating run; running out of fuel can only happen on a run that
makes no progress, which Python would never finish. -/
def buildChainLoop (strategy : String) : ℕ → ChainState → Option (List Track)
  | 0, st => if st.chain.length < st.total then none else some st.chain
  | fuel + 1, st =>
    if st.chain.length < st.total then
      match stepState strategy st with
      | none => none
      | some st2 => buildChainLoop strategy fuel st2
    else some st.chain

/-- Embedding of build_harmonic_chain. -/
def buildHarmonicChain (tracks : List Track) (startKey : Option String)
    (strategy : String) : Option (List Track) :=
  if tracks = [] then some []
  else
    let gs := groupByCamelot tracks
    match initPick gs startKey with
    | none => none
    | some (t, k) =>
      buildChainLoop strategy tracks.length
        { total := tracks.length, chain := [t], groups := eraseHeadAt gs k,
          used := [t.position], current := t }

/- ## Spec-side transition-score formulas (from the spec's words) -/

/-- Spec formula for the key component of the transition score. -/
def specKeyScore (n1 : ℕ) (l1 : String) (n2 : ℕ) (l2 : String) : ℤ :=
  if n2 = n1 ∧ l2 = l1 then 60
  else if n2 = wheelPlus1 n1 ∧ l2 = l1 then 50
  else if n2 = wheelMinus1 n1 ∧ l2 = l1 then 40
  else if n2 = n1 ∧ l2 = oppLetter l1 then 45
  else 10

/-- Spec formula for the tempo component of the transition score. -/
def specTempoScore (b1 b2 : ℚ) : ℤ :=
  if |b2 - b1| = 0 then 40
  else if |b2 - b1| ≤ 2 then 35
  else if |b2 - b1| ≤ 4 then 25
  else if |b2 - b1| ≤ 6 then 15
  else 5

/-- Spec formula for the strategy bonus of the transition score. -/
def specStrategyBonus (strategy : String) (n1 : ℕ) (l1 : String) (n2 : ℕ)
    (l2 : String) (b1 b2 : ℚ) : ℤ :=
  (if strategy = "progressive" ∧ b1 < b2 then 10 else 0) +
    (if strategy = "plateau" ∧ b2 = b1 ∧ n2 = n1 ∧ l2 = l1 then 15 else 0)

/- ## Proof-support definitions for the chain-builder claims -/

/-- Multiset of all tracks held in the by_camelot groups. -/
def groupsMul (gs : List (String × List Track)) : Multiset Track :=
  (gs.map fun p => (p.2 : Multiset Track)).sum

/-- Every track carries one of the 24 valid codes and a recorded BPM. -/
def GoodTracks (tracks : List Track) : Prop :=
  ∀ t ∈ tracks, (∃ c, t.camelot = some c ∧ c ∈ camelotCodes) ∧
    (∃ b, t.bpm = some b)

/-- The while-loop invariant of build_harmonic_chain: the total is the
input length, chain plus groups hold exactly the input multiset, group
keys are distinct, no grouped track has a used position, and the current
track is an input track. -/
def ChainInv (tracks : List Track) (st : ChainState) : Prop :=
  st.total = tracks.length ∧
  (st.chain : Multiset Track) + groupsMul st.groups = (tracks : Multiset Track) ∧
  (st.groups.map Prod.fst).Nodup ∧
  (∀ u : Track, u ∈ groupsMul st.groups → u.position ∉ st.used) ∧
  st.current ∈ tracks

/- ## Helper lemmas -/

theorem clampQ_le_hi (x lo hi : ℚ) (h : lo ≤ hi) : clampQ x lo hi ≤ hi :=
  max_le h (min_le_right x hi)

theorem le_clampQ_lo (x lo hi : ℚ) : lo ≤ clampQ x lo hi := le_max_left _ _

theorem pyTrunc_bounds (x : ℚ) (a b : ℤ) (h0 : 0 ≤ a) (ha : (a : ℚ) ≤ x)
    (hb : x ≤ (b : ℚ)) : a ≤ pyTrunc x ∧ pyTrunc x ≤ b := by
  have hx : (0 : ℚ) ≤ x := le_trans (by exact_mod_cast h0) ha
  rw [pyTrunc, if_pos hx]
  constructor
  · exact Int.le_floor.mpr ha
  · calc ⌊x⌋ ≤ ⌊(b : ℚ)⌋ := Int.floor_le_floor hb
      _ = b := Int.floor_intCast b

/- ## C2: compatible codes for valid Camelot inputs -/

/-- C2: for every valid HarmonicCode (wheel position 1-12, letter A or B)
the compatible-codes operation returns exactly the 4 codes: the input, the
+1 and -1 wheel neighbours with the same letter (wrapping 12 to 1 and
1 to 12), and the same number with the opposite letter; these 4 are
pairwise distinct and include the input; in particular
compatible_codes("8A") = [8A, 9A, 7A, 8B] and
compatible_codes("5B") = [5B, 6B, 4B, 5A]. -/
theorem compatibleCamelot_wheel (n : ℕ) (letter : String) (hn1 : 1 ≤ n)
    (hn2 : n ≤ 12) (hl : letter = "A" ∨ letter = "B") :
    getCompatibleCamelot (camelotString n letter) =
      some [camelotString n letter, camelotString (wheelPlus1 n) letter,
            camelotString (wheelMinus1 n) letter,
            camelotString n (oppLetter letter)] ∧
    [camelotString n letter, camelotString (wheelPlus1 n) letter,
      camelotString (wheelMinus1 n) letter,
      camelotString n (oppLetter letter)].Nodup ∧
    camelotString n letter ∈
      [camelotString n letter, camelotString (wheelPlus1 n) letter,
        camelotString (wheelMinus1 n) letter,
        camelotString n (oppLetter letter)] ∧
    getCompatibleCamelot "8A" = some ["8A", "9A", "7A", "8B"] ∧
    getCompatibleCamelot "5B" = some ["5B", "6B", "4B", "5A"] := by
  rcases hl with h | h <;> subst h <;> interval_cases n <;> decide

/-- C2 witness: the theorem instantiated at the concrete code 8A. -/
theorem compatibleCamelot_wheel_witness :
    getCompatibleCamelot (camelotString 8 "A") =
      some [camelotString 8 "A", camelotString (wheelPlus1 8) "A",
            camelotString (wheelMinus1 8) "A",
            camelotString 8 (oppLetter "A")] ∧
    [camelotString 8 "A", camelotString (wheelPlus1 8) "A",
      camelotString (wheelMinus1 8) "A", camelotString 8 (oppLetter "A")].Nodup ∧
    camelotString 8 "A" ∈
      [camelotString 8 "A", camelotString (wheelPlus1 8) "A",
        camelotString (wheelMinus1 8) "A", camelotString 8 (oppLetter "A")] ∧
    getCompatibleCamelot "8A" = some ["8A", "9A", "7A", "8B"] ∧
    getCompatibleCamelot "5B" = some ["5B", "6B", "4B", "5A"] :=
  compatibleCamelot_wheel 8 "A" (by decide) (by decide) (Or.inl rfl)

/- ## C4: malformed / empty harmonic-code inputs -/

/-- C4 counterexample: the claim says every malformed input yields the
empty set and never raises, but "XA" (length 2, unparseable leading part)
makes int(camelot[:-1]) raise ValueError, modelled as none, which is not
the empty-list result. -/
theorem compatibleCamelot_unparseable_raises :
    getCompatibleCamelot "XA" = none ∧ getCompatibleCamelot "XA" ≠ some [] := by
  decide

/-- C4 amended: an empty or shorter-than-two-characters code yields the
empty list without raising; in particular the empty string yields the
empty list. An input of length at least 2 whose leading part is not an
integer instead raises ValueError. -/
theorem compatibleCamelot_short_empty (s : String) (h : s.length < 2) :
    getCompatibleCamelot s = some [] ∧ getCompatibleCamelot "" = some [] := by
  constructor
  · unfold getCompatibleCamelot
    rw [if_pos (Or.inr h)]
  · decide

/-- C4 witness: the amended theorem instantiated at the empty string. -/
theorem compatibleCamelot_short_empty_witness :
    getCompatibleCamelot "" = some [] ∧ getCompatibleCamelot "" = some [] :=
  compatibleCamelot_short_empty "" (by decide)

/- ## C8: Camelot / key-name round trip -/

/-- C8: for each of the 24 defined Camelot codes, converting to the key
name with camelot_to_key and back with key_to_camelot is the identity; in
particular 8A maps to "Am" and back to 8A. -/
theorem camelot_key_roundtrip (c : String) (hc : c ∈ camelotCodes) :
    key_to_camelot (camelot_to_key c) = c ∧ camelot_to_key "8A" = "Am" ∧
      key_to_camelot "Am" = "8A" := by
  have h24 : ∀ c0 ∈ camelotCodes, key_to_camelot (camelot_to_key c0) = c0 := by
    decide
  exact ⟨h24 c hc, by decide, by decide⟩

/-- C8 witness: the round trip at the concrete code 8A. -/
theorem camelot_key_roundtrip_witness :
    key_to_camelot (camelot_to_key "8A") = "8A" ∧ camelot_to_key "8A" = "Am" ∧
      key_to_camelot "Am" = "8A" :=
  camelot_key_roundtrip "8A" (by decide)

/- ## C3: energy level computation -/

/-- C3 counterexample: at rms_db = -30, centroid = 500, rolloff = 1000,
zcr = 0.02 the raw score is 0.2 and raw*9+1 = 2.8; the claim's
round(clamp(...)) is 3, but calculate_energy returns int(...) = 2. -/
theorem energyLevel_truncation_ctex :
    calculateEnergyLevel (-30) 500 1000 (2 / 100) = 2 ∧
    roundHalfEvenInt
      (clampQ (energyRawScore (-30) 500 1000 (2 / 100) * 9 + 1) 1 10) = 3 ∧
    (2 : ℤ) ≠ 3 := by
  have hraw : energyRawScore (-30) 500 1000 (2 / 100) = 1 / 5 := by
    norm_num [energyRawScore, energyRmsNorm, energyCentroidNorm,
      energyRolloffNorm, energyZcrNorm, clampQ, max_def, min_def]
  have hclamp : clampQ (energyRawScore (-30) 500 1000 (2 / 100) * 9 + 1) 1 10 =
      14 / 5 := by
    rw [hraw]; norm_num [clampQ, max_def, min_def]
  refine ⟨?_, ?_, by decide⟩
  · rw [calculateEnergyLevel, hclamp]; norm_num [pyTrunc]
  · rw [hclamp]; norm_num [roundHalfEvenInt]

/-- C3 amended: calculate_energy computes
raw_score = 0.40*loudness + 0.25*brightness + 0.20*spread +
0.15*percussiveness over the four sub-features clamped to [0,1] against
the stated ranges, and returns int(clamp(raw_score*9+1, 1, 10)) - the
truncation of the clamped value, not its rounding - an integer in
[1, 10]. -/
theorem energyLevel_formula (rmsDb centroidMean rolloffMean zcrMean : ℚ) :
    calculateEnergyLevel rmsDb centroidMean rolloffMean zcrMean =
      pyTrunc (clampQ ((0.40 * clampQ ((rmsDb + 60) / 60) 0 1 +
        0.25 * clampQ ((centroidMean - 500) / 7500) 0 1 +
        0.20 * clampQ ((rolloffMean - 1000) / 14000) 0 1 +
        0.15 * clampQ ((zcrMean - 0.02) / 0.13) 0 1) * 9 + 1) 1 10) ∧
    1 ≤ calculateEnergyLevel rmsDb centroidMean rolloffMean zcrMean ∧
    calculateEnergyLevel rmsDb centroidMean rolloffMean zcrMean ≤ 10 := by
  have hform : calculateEnergyLevel rmsDb centroidMean rolloffMean zcrMean =
      pyTrunc (clampQ ((0.40 * clampQ ((rmsDb + 60) / 60) 0 1 +
        0.25 * clampQ ((centroidMean - 500) / 7500) 0 1 +
        0.20 * clampQ ((rolloffMean - 1000) / 14000) 0 1 +
        0.15 * clampQ ((zcrMean - 0.02) / 0.13) 0 1) * 9 + 1) 1 10) := by
    unfold calculateEnergyLevel energyRawScore energyRmsNorm energyCentroidNorm
      energyRolloffNorm energyZcrNorm
    norm_num
  refine ⟨hform, ?_⟩
  have hmem := pyTrunc_bounds
    (clampQ (energyRawScore rmsDb centroidMean rolloffMean zcrMean * 9 + 1) 1 10)
    1 10 (by norm_num) (by exact_mod_cast le_clampQ_lo _ _ _)
    (by exact_mod_cast clampQ_le_hi _ _ _ (by norm_num))
  exact hmem

/- ## More helper lemmas: rounding bounds, sorting length, batch log -/

theorem roundHalfEvenInt_bounds (x : ℚ) (a b : ℤ) (ha : (a : ℚ) ≤ x)
    (hb : x ≤ (b : ℚ)) : a ≤ roundHalfEvenInt x ∧ roundHalfEvenInt x ≤ b := by
  have hfa : a ≤ ⌊x⌋ := Int.le_floor.mpr ha
  have hfb : ⌊x⌋ ≤ b := by
    calc ⌊x⌋ ≤ ⌊(b : ℚ)⌋ := Int.floor_le_floor hb
      _ = b := Int.floor_intCast b
  have hfx : (⌊x⌋ : ℚ) ≤ x := Int.floor_le x
  have hne : x - ⌊x⌋ ≥ 1 / 2 → ⌊x⌋ + 1 ≤ b := by
    intro hgt
    rcases eq_or_lt_of_le hfb with he | hlt
    · exfalso
      have : (⌊x⌋ : ℚ) = (b : ℚ) := by exact_mod_cast he
      rw [this] at hgt
      linarith
    · omega
  simp only [roundHalfEvenInt]
  split_ifs with h1 h2 h3
  · exact ⟨hfa, hfb⟩
  · exact ⟨by omega, hne (le_of_lt h2)⟩
  · exact ⟨hfa, hfb⟩
  · have htie : x - ⌊x⌋ ≥ 1 / 2 := le_of_not_lt h1
    exact ⟨by omega, hne htie⟩

theorem pyRound01 (x : ℚ) (h0 : 0 ≤ x) (h1 : x ≤ 1) :
    0 ≤ pyRound x 2 ∧ pyRound x 2 ≤ 1 := by
  have hb := roundHalfEvenInt_bounds (x * 10 ^ 2) 0 100
    (by push_cast; nlinarith) (by push_cast; nlinarith)
  have hc0 : (0 : ℚ) ≤ (roundHalfEvenInt (x * 10 ^ 2) : ℚ) := by
    exact_mod_cast hb.1
  have hc1 : ((roundHalfEvenInt (x * 10 ^ 2) : ℚ)) ≤ 100 := by
    exact_mod_cast hb.2
  have h100 : ((10 : ℚ) ^ 2) = 100 := by norm_num
  unfold pyRound
  constructor
  · exact div_nonneg hc0 (by positivity)
  · rw [div_le_one (by positivity), h100]
    exact hc1

theorem insertDesc_length (x : ℚ) (l : List ℚ) :
    (insertDesc x l).length = l.length + 1 := by
  induction l with
  | nil => rfl
  | cons y ys ih =>
    rw [insertDesc]
    split_ifs with h
    · simp
    · simp [ih]

theorem sortDesc_length (l : List ℚ) : (sortDesc l).length = l.length := by
  unfold sortDesc
  induction l with
  | nil => rfl
  | cons x xs ih => simp [List.foldr, insertDesc_length, ih]

theorem processBatch_log {ι : Type} (ids acc s0 : List ι) :
    (processBatch (fun i l => (Except.ok (i, l ++ [i]) : Except Unit (ι × List ι)))
      ids acc s0).2 = s0 ++ ids := by
  induction ids generalizing acc s0 with
  | nil => simp [processBatch]
  | cons a rest ih => simp [processBatch, ih]

/- ## C6: tempo confidence -/

/-- C6 counterexample: with tempo 100 and beat times [0, 1/2, 6/5], the
formula 1 - clamp(mean(|interval - expected| / expected), 0, 1) gives 5/6,
but detect_bpm returns that value rounded to two decimals, 0.83, so the
claimed exact equality fails. -/
theorem bpmConfidence_rounding_ctex :
    (detectBpmResult 100 [0, 1/2, 6/5]).2 = 83/100 ∧
    1 - clampQ (meanQ ((listDiffs [0, 1/2, 6/5]).map
      (fun i => |i - 60/100| / (60/100)))) 0 1 = 5/6 ∧
    ((83 : ℚ)/100) ≠ 5/6 := by
  have hmean : meanQ ((listDiffs [0, 1/2, 6/5]).map
      (fun i => |i - 60/100| / (60/100))) = 1/6 := by
    norm_num [listDiffs, meanQ, abs]
  refine ⟨?_, ?_, by norm_num⟩
  · show pyRound (bpmConfidenceRaw 100 [0, 1/2, 6/5]) 2 = 83/100
    have hraw : bpmConfidenceRaw 100 [0, 1/2, 6/5] = 5/6 := by
      rw [bpmConfidenceRaw, if_pos (by norm_num)]
      show 1 - clampQ (meanQ ((listDiffs [0, 1/2, 6/5]).map
        (fun i => |i - 60/100| / (60/100)))) 0 1 = 5/6
      rw [hmean]; norm_num [clampQ, max_def, min_def]
    rw [hraw]; norm_num [pyRound, roundHalfEvenInt]
  · rw [hmean]; norm_num [clampQ, max_def, min_def]

/-- C6 amended: the confidence detect_bpm reports is
round(1 - clamp(mean(|interval - expected| / expected), 0, 1), 2) - the
spec formula rounded to two decimal places - when at least 2 beats were
detected, and exactly 0 for fewer than 2 beats regardless of the tempo;
the reported BPM is round(tempo, 1). -/
theorem bpmConfidence_formula (tempo : ℚ) (beats : List ℚ) :
    (detectBpmResult tempo beats).2 =
      (if 2 ≤ beats.length then
        pyRound (1 - clampQ (meanQ ((listDiffs beats).map
          (fun i => |i - 60 / tempo| / (60 / tempo)))) 0 1) 2
      else 0) ∧
    (detectBpmResult tempo beats).1 = pyRound tempo 1 := by
  constructor
  · show pyRound (bpmConfidenceRaw tempo beats) 2 = _
    rcases lt_or_ge 1 beats.length with h | h
    · rw [bpmConfidenceRaw, if_pos h, if_pos (by omega)]
    · rw [bpmConfidenceRaw, if_neg (not_lt.mpr h), if_neg (by omega)]
      norm_num [pyRound, roundHalfEvenInt]
  · rfl

/- ## C7: key confidence -/

/-- C7 counterexample: with correlation scores 1, 5/6, and 22 zeros, the
spec formula clamp(2*(top - second)/(top + 1e-6), 0, 1) gives
1000000/3000003, but detect_key returns that value rounded to two
decimals, 0.33, so the claimed exact equality fails. -/
theorem keyConfidence_rounding_ctex :
    keyConfidence (1 :: 5/6 :: List.replicate 22 0) = 33/100 ∧
    min 1 (max 0 (2 * (((1:ℚ) - 5/6) / (1 + 1/1000000)))) = 1000000/3000003 ∧
    (33/100 : ℚ) ≠ 1000000/3000003 := by
  have hs : sortDesc (1 :: 5/6 :: List.replicate 22 0) =
      1 :: 5/6 :: List.replicate 22 0 := by
    norm_num [sortDesc, insertDesc, List.replicate, List.foldr]
  refine ⟨?_, by norm_num [max_def, min_def], by norm_num⟩
  rw [keyConfidence, hs]
  show pyRound (min 1 (max 0 (((1:ℚ) - 5/6) / (1 + 1/1000000) * 2))) 2 = 33/100
  norm_num [pyRound, roundHalfEvenInt, max_def, min_def]

/-- C7 amended: over 24 correlation scores, detect_key's confidence is
round(clamp(2*(top - second)/(top + 1e-6), 0, 1), 2) - the spec formula
rounded to two decimal places - where top and second are the two largest
scores; it always lies in [0, 1], and equals exactly 0 when the top two
scores tie. -/
theorem keyConfidence_formula (corrs : List ℚ) (h24 : corrs.length = 24) :
    ∃ s0 s1 rest, sortDesc corrs = s0 :: s1 :: rest ∧
      keyConfidence corrs =
        pyRound (min 1 (max 0 (2 * ((s0 - s1) / (s0 + 1/1000000))))) 2 ∧
      0 ≤ keyConfidence corrs ∧ keyConfidence corrs ≤ 1 ∧
      (s0 = s1 → keyConfidence corrs = 0) := by
  have hlen : (sortDesc corrs).length = 24 := by rw [sortDesc_length, h24]
  rcases hsd : sortDesc corrs with _ | ⟨s0, _ | ⟨s1, rest⟩⟩
  · rw [hsd] at hlen; simp at hlen
  · rw [hsd] at hlen; simp at hlen
  have hkc : keyConfidence corrs =
      pyRound (min 1 (max 0 ((s0 - s1) / (s0 + 1/1000000) * 2))) 2 := by
    rw [keyConfidence, hsd]
  have harg : (s0 - s1) / (s0 + 1/1000000) * 2 =
      2 * ((s0 - s1) / (s0 + 1/1000000)) := by ring
  have h0 : 0 ≤ min 1 (max 0 ((s0 - s1) / (s0 + 1/1000000) * 2)) :=
    le_min (by norm_num) (le_max_left 0 _)
  have h1 : min 1 (max 0 ((s0 - s1) / (s0 + 1/1000000) * 2)) ≤ 1 :=
    min_le_left _ _
  have hb := pyRound01 _ h0 h1
  refine ⟨s0, s1, rest, rfl, by rw [hkc, harg], by rw [hkc]; exact hb.1,
    by rw [hkc]; exact hb.2, ?_⟩
  intro he
  rw [hkc, he]
  norm_num [pyRound, roundHalfEvenInt]

/-- C7 witness: the amended theorem at a concrete list of 24 equal
scores, where the confidence is exactly 0. -/
theorem keyConfidence_formula_witness :
    ∃ s0 s1 rest, sortDesc (List.replicate 24 0) = s0 :: s1 :: rest ∧
      keyConfidence (List.replicate 24 0) =
        pyRound (min 1 (max 0 (2 * ((s0 - s1) / (s0 + 1/1000000))))) 2 ∧
      0 ≤ keyConfidence (List.replicate 24 0) ∧
      keyConfidence (List.replicate 24 0) ≤ 1 ∧
      (s0 = s1 → keyConfidence (List.replicate 24 0) = 0) :=
  keyConfidence_formula (List.replicate 24 0) (by simp)

/- ## C9: batch failures are silently dropped -/

/-- C9: with a batch of tracks 1 and 2 where analyzing track 1 raises
HTTPException (e.g. 404) and track 2 succeeds, analyze_batch returns only
the success: the failed track is omitted from the response with no
per-item error entry, the response is shorter than the request, and it
carries no information about track 1 - contradicting both the claim and
the function's own docstring ("Returns results for all tracks (including
failures)"). -/
theorem analyzeBatch_silent_drop :
    analyzeBatch
      (fun tid _ => if tid = 1
        then (Except.error "Track not found" : Except String (ℕ × Unit))
        else Except.ok (tid, ()))
      [1, 2] () = (Except.ok [2], ()) ∧
    (1 : ℕ) ∉ [2] ∧ ([2] : List ℕ).length < ([1, 2] : List ℕ).length :=
  ⟨rfl, by decide, by decide⟩

/- ## C10: batch size limit and sequential processing -/

/-- C10: a batch request with more than 10 track ids is rejected with the
HTTP 400 error before any track is processed (the state is returned
unchanged); a request with at most 10 ids is accepted and handled by the
sequential loop, which visits each id exactly once in the given order, as
the logging instantiation shows. -/
theorem analyzeBatch_limit_order {ι σ R E : Type} (f : ι → σ → Except E (R × σ))
    (ids : List ι) (s : σ) :
    (10 < ids.length →
      analyzeBatch f ids s = (Except.error "Maximum 10 tracks per batch", s)) ∧
    (ids.length ≤ 10 →
      analyzeBatch f ids s =
        (Except.ok (processBatch f ids [] s).1, (processBatch f ids [] s).2)) ∧
    (ids.length ≤ 10 → ∀ s0 : List ι,
      (analyzeBatch
        (fun i l => (Except.ok (i, l ++ [i]) : Except Unit (ι × List ι)))
        ids s0).2 = s0 ++ ids) := by
  refine ⟨fun h => ?_, fun h => ?_, fun h s0 => ?_⟩
  · rw [analyzeBatch, if_pos h]
  · rw [analyzeBatch, if_neg (not_lt.mpr h)]
  · rw [analyzeBatch, if_neg (not_lt.mpr h)]
    exact processBatch_log ids [] s0

/-- C10 witness: the limit branch on an 11-id request and the sequential
log on a 3-id request, both concrete. -/
theorem analyzeBatch_limit_order_witness :
    analyzeBatch
      (fun i l => (Except.ok (i, l ++ [i]) : Except Unit (ℕ × List ℕ)))
      (List.range 11) [] =
      (Except.error "Maximum 10 tracks per batch", []) ∧
    (analyzeBatch
      (fun i l => (Except.ok (i, l ++ [i]) : Except Unit (ℕ × List ℕ)))
      [1, 2, 3] []).2 = [] ++ [1, 2, 3] :=
  ⟨(analyzeBatch_limit_order _ (List.range 11) []).1 (by decide),
    (analyzeBatch_limit_order
      (fun i l => (Except.ok (i, l ++ [i]) : Except Unit (ℕ × List ℕ)))
      [1, 2, 3] []).2.2 (by decide) []⟩

/- ## C5: transition score decomposition -/

set_option maxRecDepth 4000

theorem camelotKeyScore_table : ∀ n1 ∈ List.range' 1 12,
    ∀ l1 ∈ (["A", "B"] : List String), ∀ n2 ∈ List.range' 1 12,
    ∀ l2 ∈ (["A", "B"] : List String),
    camelotKeyScore (camelotString n1 l1) (camelotString n2 l2) =
      some (specKeyScore n1 l1 n2 l2) := by decide

theorem camelotString_inj : ∀ n1 ∈ List.range' 1 12,
    ∀ l1 ∈ (["A", "B"] : List String), ∀ n2 ∈ List.range' 1 12,
    ∀ l2 ∈ (["A", "B"] : List String),
    (camelotString n1 l1 = camelotString n2 l2 ↔ n1 = n2 ∧ l1 = l2) := by decide

theorem camelotString_ne_empty : ∀ n ∈ List.range' 1 12,
    ∀ l ∈ (["A", "B"] : List String), camelotString n l ≠ "" := by decide

theorem loopScore_plateau (cc : Option String) (cb : Option ℚ) (k : String)
    (t : Track) (s : ℤ)
    (hcs : calculateCompatibilityScore cc (some k) cb t.bpm = some s) :
    loopCandidateScore "plateau" cc cb k t =
      some (if t.bpm = cb ∧ cc = some k then s + 15 else s) := by
  rw [loopCandidateScore, hcs]
  simp only [reduceIte, Option.map_some]
  split_ifs with h1 h2 <;> first | rfl | (exfalso; tauto)

theorem loopScore_progressive (cc : Option String) (b1 : ℚ) (k : String)
    (t : Track) (s : ℤ)
    (hcs : calculateCompatibilityScore cc (some k) (some b1) t.bpm = some s) :
    loopCandidateScore "progressive" cc (some b1) k t =
      some (if b1 < t.bpm.getD 0 then s + 10 else s) := by
  rw [loopCandidateScore, hcs]
  simp only [reduceIte, Option.map_some]
  split_ifs with h1 h2 <;> first | rfl | (exfalso; tauto)

theorem loopScore_journey (cc : Option String) (cb : Option ℚ) (k : String)
    (t : Track) (s : ℤ)
    (hcs : calculateCompatibilityScore cc (some k) cb t.bpm = some s) :
    loopCandidateScore "journey" cc cb k t = some s := by
  rw [loopCandidateScore, hcs]
  simp only [reduceIte, Option.map_some]
  split_ifs with h1 <;> first | rfl | (exfalso; tauto)

theorem calcScore_both_known (c1 c2 : String) (b1 b2 : ℚ) (hne1 : c1 ≠ "")
    (hne2 : c2 ≠ "") (hb1 : b1 ≠ 0) (hb2 : b2 ≠ 0) (K : ℤ)
    (hkey : camelotKeyScore c1 c2 = some K) :
    calculateCompatibilityScore (some c1) (some c2) (some b1) (some b2) =
      some (K + bpmDiffScore |b2 - b1|) := by
  simp only [calculateCompatibilityScore]
  rw [if_neg (not_or.mpr ⟨hne1, hne2⟩), hkey]
  simp only [bpmPairScore, Option.map_some]
  rw [if_neg (not_or.mpr ⟨hb1, hb2⟩)]
  rfl

/-- C5: for every pair of tracks with known harmonic codes (wheel position
1-12, letter A or B) and positive BPMs, and each of the three strategies,
the transition score computed inside the chain-building loop equals the
spec's key component (identical = 60, +1 same letter = 50, -1 same
letter = 40, relative major/minor = 45, otherwise 10) plus the spec's
tempo step function (diff 0 -> 40, <=2 -> 35, <=4 -> 25, <=6 -> 15,
else 5) plus the spec's strategy bonus (+10 progressive when the
candidate's BPM exceeds the current one, +15 plateau on exact same BPM
and key). -/
theorem transitionScore_decomposition (strategy : String) (n1 n2 : ℕ)
    (l1 l2 : String) (b1 b2 : ℚ) (p : ℕ)
    (hn1 : 1 ≤ n1) (hn1b : n1 ≤ 12) (hn2 : 1 ≤ n2) (hn2b : n2 ≤ 12)
    (hl1 : l1 = "A" ∨ l1 = "B") (hl2 : l2 = "A" ∨ l2 = "B")
    (hb1 : 0 < b1) (hb2 : 0 < b2)
    (hs : strategy = "progressive" ∨ strategy = "plateau" ∨
      strategy = "journey") :
    loopCandidateScore strategy (some (camelotString n1 l1)) (some b1)
      (camelotString n2 l2)
      { position := p, camelot := some (camelotString n2 l2), bpm := some b2 } =
    some (specKeyScore n1 l1 n2 l2 + specTempoScore b1 b2 +
      specStrategyBonus strategy n1 l1 n2 l2 b1 b2) := by
  have hm1 : n1 ∈ List.range' 1 12 := by rw [List.mem_range'_1]; omega
  have hm2 : n2 ∈ List.range' 1 12 := by rw [List.mem_range'_1]; omega
  have hl1m : l1 ∈ (["A", "B"] : List String) := by
    rcases hl1 with h | h <;> simp [h]
  have hl2m : l2 ∈ (["A", "B"] : List String) := by
    rcases hl2 with h | h <;> simp [h]
  have hkey := camelotKeyScore_table n1 hm1 l1 hl1m n2 hm2 l2 hl2m
  have hne1 := camelotString_ne_empty n1 hm1 l1 hl1m
  have hne2 := camelotString_ne_empty n2 hm2 l2 hl2m
  have hinj := camelotString_inj n1 hm1 l1 hl1m n2 hm2 l2 hl2m
  have htempo : specTempoScore b1 b2 = bpmDiffScore |b2 - b1| := rfl
  have hcs := calcScore_both_known (camelotString n1 l1) (camelotString n2 l2)
    b1 b2 hne1 hne2 (ne_of_gt hb1) (ne_of_gt hb2) _ hkey
  rcases hs with h | h | h <;> subst h
  · rw [loopScore_progressive _ _ _ _ _ hcs]
    refine congrArg some ?_
    have hsp : ¬("progressive" = "plateau") := by decide
    simp only [specStrategyBonus, Option.getD_some, htempo, eq_false hsp,
      false_and, if_false, eq_self_iff_true, true_and, add_zero]
    split_ifs with h1 <;> omega
  · rw [loopScore_plateau _ _ _ _ _ hcs]
    refine congrArg some ?_
    have hsp : ¬("plateau" = "progressive") := by decide
    simp only [specStrategyBonus, htempo, eq_false hsp, false_and, if_false,
      eq_self_iff_true, true_and, zero_add, Option.some.injEq, hinj, eq_comm]
    split_ifs <;> omega
  · rw [loopScore_journey _ _ _ _ _ hcs]
    refine congrArg some ?_
    have hsp : ¬("journey" = "progressive") := by decide
    have hsp2 : ¬("journey" = "plateau") := by decide
    simp only [specStrategyBonus, htempo, eq_false hsp, eq_false hsp2,
      false_and, if_false, add_zero]

/-- C5 witness: the decomposition at 8A/120 BPM against a 9A/122 BPM
candidate under the progressive strategy. -/
theorem transitionScore_decomposition_witness :
    loopCandidateScore "progressive" (some (camelotString 8 "A")) (some 120)
      (camelotString 9 "A")
      { position := 0, camelot := some (camelotString 9 "A"),
        bpm := some 122 } =
    some (specKeyScore 8 "A" 9 "A" + specTempoScore 120 122 +
      specStrategyBonus "progressive" 8 "A" 9 "A" 120 122) :=
  transitionScore_decomposition "progressive" 8 9 "A" "A" 120 122 0
    (by decide) (by decide) (by decide) (by decide) (Or.inl rfl) (Or.inl rfl)
    (by norm_num) (by norm_num) (Or.inl rfl)

/- ## C1: chain builder permutation -/

theorem groupsMul_nil : groupsMul [] = 0 := rfl

theorem groupsMul_cons (p : String × List Track) (gs : List (String × List Track)) :
    groupsMul (p :: gs) = (p.2 : Multiset Track) + groupsMul gs := by
  simp [groupsMul]

theorem mem_groupsMul (gs : List (String × List Track)) (t : Track) :
    t ∈ groupsMul gs ↔ ∃ p ∈ gs, t ∈ p.2 := by
  induction gs with
  | nil => simp [groupsMul_nil]
  | cons p gs ih => simp [groupsMul_cons, ih]

theorem groupsMul_addToGroups (gs : List (String × List Track)) (k : String)
    (t : Track) : groupsMul (addToGroups gs k t) = t ::ₘ groupsMul gs := by
  induction gs with
  | nil => simp [addToGroups, groupsMul_cons, groupsMul_nil]
  | cons p gs ih =>
    rcases p with ⟨k2, l⟩
    rw [addToGroups]
    split_ifs with h
    · simp only [groupsMul_cons]
      rw [← Multiset.coe_add, Multiset.coe_singleton,
        add_comm (l : Multiset Track) {t}, add_assoc, Multiset.singleton_add]
    · simp only [groupsMul_cons, ih, Multiset.add_cons]

theorem keys_addToGroups (gs : List (String × List Track)) (k : String)
    (t : Track) (x : String) :
    x ∈ (addToGroups gs k t).map Prod.fst ↔ x ∈ gs.map Prod.fst ∨ x = k := by
  induction gs with
  | nil => simp [addToGroups]
  | cons p gs ih =>
    rcases p with ⟨k2, l⟩
    rw [addToGroups]
    split_ifs with h
    · subst h
      simp only [List.map_cons, List.mem_cons]
      tauto
    · simp only [List.map_cons, List.mem_cons, ih]
      tauto

theorem nodup_keys_addToGroups (gs : List (String × List Track)) (k : String)
    (t : Track) (hn : (gs.map Prod.fst).Nodup) :
    ((addToGroups gs k t).map Prod.fst).Nodup := by
  induction gs with
  | nil => simp [addToGroups]
  | cons p gs ih =>
    rcases p with ⟨k2, l⟩
    rw [addToGroups]
    rw [List.map_cons, List.nodup_cons] at hn
    split_ifs with h
    · rw [List.map_cons, List.nodup_cons]
      exact hn
    · rw [List.map_cons, List.nodup_cons]
      refine ⟨?_, ih hn.2⟩
      rw [keys_addToGroups]
      rintro (hx | hx)
      · exact hn.1 hx
      · exact h hx

theorem nonempty_addToGroups (gs : List (String × List Track)) (k : String)
    (t : Track) (hn : ∀ p ∈ gs, p.2 ≠ []) :
    ∀ p ∈ addToGroups gs k t, p.2 ≠ [] := by
  induction gs with
  | nil =>
    intro p hp
    simp only [addToGroups, List.mem_singleton] at hp
    subst hp
    simp
  | cons q gs ih =>
    rcases q with ⟨k2, l⟩
    rw [addToGroups]
    split_ifs with h
    · intro p hp
      rcases List.mem_cons.mp hp with he | hm
      · subst he; simp
      · exact hn p (List.mem_cons_of_mem _ hm)
    · intro p hp
      rcases List.mem_cons.mp hp with he | hm
      · subst he
        exact hn (k2, l) (List.mem_cons_self _ _)
      · exact ih (fun q hq => hn q (List.mem_cons_of_mem _ hq)) p hm

theorem groupByCamelot_facts (tracks : List Track)
    (h : ∀ t ∈ tracks, trackCamelotKey t ≠ none) :
    groupsMul (groupByCamelot tracks) = (tracks : Multiset Track) ∧
    ((groupByCamelot tracks).map Prod.fst).Nodup ∧
    (∀ p ∈ groupByCamelot tracks, p.2 ≠ []) := by
  have main : ∀ (ts : List Track) (gs : List (String × List Track)),
      (∀ t ∈ ts, trackCamelotKey t ≠ none) →
      (gs.map Prod.fst).Nodup → (∀ p ∈ gs, p.2 ≠ []) →
      groupsMul (ts.foldl (fun gs2 t =>
        match trackCamelotKey t with
        | none => gs2
        | some k => addToGroups gs2 k t) gs) = groupsMul gs + ↑ts ∧
      ((ts.foldl (fun gs2 t =>
        match trackCamelotKey t with
        | none => gs2
        | some k => addToGroups gs2 k t) gs).map Prod.fst).Nodup ∧
      (∀ p ∈ ts.foldl (fun gs2 t =>
        match trackCamelotKey t with
        | none => gs2
        | some k => addToGroups gs2 k t) gs, p.2 ≠ []) := by
    intro ts
    induction ts with
    | nil =>
      intro gs hts hk hne
      refine ⟨by simp, hk, hne⟩
    | cons t ts ih =>
      intro gs hts hk hne
      rw [List.foldl_cons]
      obtain ⟨c, hc⟩ := Option.ne_none_iff_exists'.mp
        (hts t (List.mem_cons_self _ _))
      rw [hc]
      have ihr := ih (addToGroups gs c t)
        (fun u hu => hts u (List.mem_cons_of_mem _ hu))
        (nodup_keys_addToGroups gs c t hk)
        (nonempty_addToGroups gs c t hne)
      refine ⟨?_, ihr.2.1, ihr.2.2⟩
      rw [ihr.1, groupsMul_addToGroups]
      rw [Multiset.cons_add, ← Multiset.add_cons, Multiset.cons_coe]
  have hm := main tracks [] h (by simp) (by simp)
  rw [groupByCamelot]
  refine ⟨?_, hm.2.1, hm.2.2⟩
  rw [hm.1, groupsMul_nil, zero_add]

theorem lookupGroup_mem (gs : List (String × List Track)) (k : String)
    (l : List Track) (h : lookupGroup gs k = some l) : (k, l) ∈ gs := by
  induction gs with
  | nil => simp [lookupGroup] at h
  | cons p gs ih =>
    rcases p with ⟨k2, l2⟩
    rw [lookupGroup] at h
    split_ifs at h with he
    · subst he
      obtain rfl : l2 = l := by injection h
      exact List.mem_cons_self _ _
    · exact List.mem_cons_of_mem _ (ih h)

theorem foldl_pick_mem (gs : List (String × List Track))
    (g : String × List Track) :
    gs.foldl (fun best p => if best.2.length < p.2.length then p else best) g ∈
      g :: gs := by
  induction gs generalizing g with
  | nil => simp
  | cons p gs ih =>
    rw [List.foldl_cons]
    rcases List.mem_cons.mp
        (ih (if g.2.length < p.2.length then p else g)) with he | hm
    · rw [he]
      split_ifs
      · exact List.mem_cons_of_mem _ (List.mem_cons_self _ _)
      · exact List.mem_cons_self _ _
    · exact List.mem_cons_of_mem _ (List.mem_cons_of_mem _ hm)

theorem pickPopular_mem (gs : List (String × List Track))
    (p : String × List Track) (h : pickPopular gs = some p) : p ∈ gs := by
  cases gs with
  | nil => simp [pickPopular] at h
  | cons g rest =>
    rw [pickPopular] at h
    obtain rfl : rest.foldl
        (fun best p => if best.2.length < p.2.length then p else best) g = p := by
      injection h
    exact foldl_pick_mem rest g

theorem keys_eraseTrackAt (gs : List (String × List Track)) (k : String)
    (t : Track) : (eraseTrackAt gs k t).map Prod.fst = gs.map Prod.fst := by
  induction gs with
  | nil => rfl
  | cons p gs ih =>
    simp only [eraseTrackAt, List.map_cons] at ih ⊢
    refine congrArg₂ List.cons ?_ ih
    split_ifs <;> rfl

theorem eraseTrackAt_of_not_mem (gs : List (String × List Track)) (k : String)
    (t : Track) (h : k ∉ gs.map Prod.fst) : eraseTrackAt gs k t = gs := by
  induction gs with
  | nil => rfl
  | cons p gs ih =>
    simp only [List.map_cons, List.mem_cons, not_or] at h
    simp only [eraseTrackAt, List.map_cons]
    rw [if_neg (fun hh => h.1 hh.symm)]
    exact congrArg _ (ih h.2)

theorem groupsMul_eraseTrackAt (gs : List (String × List Track)) (k : String)
    (t : Track) (l : List Track) (hnod : (gs.map Prod.fst).Nodup)
    (hmem : (k, l) ∈ gs) (ht : t ∈ l) :
    t ::ₘ groupsMul (eraseTrackAt gs k t) = groupsMul gs := by
  induction gs with
  | nil => simp at hmem
  | cons p gs ih =>
    rcases p with ⟨k2, l2⟩
    rw [List.map_cons, List.nodup_cons] at hnod
    rcases List.mem_cons.mp hmem with he | hm
    · obtain ⟨rfl, rfl⟩ : k = k2 ∧ l = l2 := by
        rw [Prod.mk.injEq] at he
        exact he
      simp only [eraseTrackAt, List.map_cons]
      rw [if_true]
      have hrest : gs.map (fun p => if p.1 = k then (p.1, p.2.erase t) else p) =
          gs := eraseTrackAt_of_not_mem gs k t hnod.1
      rw [hrest, groupsMul_cons, groupsMul_cons, ← Multiset.cons_add]
      refine congrArg₂ (· + ·) ?_ rfl
      show t ::ₘ ((l.erase t : List Track) : Multiset Track) = (l : Multiset Track)
      rw [← Multiset.coe_erase]
      exact Multiset.cons_erase (Multiset.mem_coe.mpr ht)
    · have hk2 : k2 ≠ k := by
        intro he2
        subst he2
        exact hnod.1 (List.mem_map.mpr ⟨(k2, l), hm, rfl⟩)
      simp only [eraseTrackAt, List.map_cons]
      rw [if_neg hk2]
      rw [groupsMul_cons, groupsMul_cons, ← Multiset.add_cons]
      refine congrArg₂ (· + ·) rfl ?_
      exact ih hnod.2 hm

theorem keys_eraseHeadAt (gs : List (String × List Track)) (k : String) :
    (eraseHeadAt gs k).map Prod.fst = gs.map Prod.fst := by
  induction gs with
  | nil => rfl
  | cons p gs ih =>
    simp only [eraseHeadAt, List.map_cons] at ih ⊢
    refine congrArg₂ List.cons ?_ ih
    split_ifs <;> rfl

theorem eraseHeadAt_of_not_mem (gs : List (String × List Track)) (k : String)
    (h : k ∉ gs.map Prod.fst) : eraseHeadAt gs k = gs := by
  induction gs with
  | nil => rfl
  | cons p gs ih =>
    simp only [List.map_cons, List.mem_cons, not_or] at h
    simp only [eraseHeadAt, List.map_cons]
    rw [if_neg (fun hh => h.1 hh.symm)]
    exact congrArg _ (ih h.2)

theorem groupsMul_eraseHeadAt (gs : List (String × List Track)) (k : String)
    (t : Track) (l2 : List Track) (hnod : (gs.map Prod.fst).Nodup)
    (hmem : (k, t :: l2) ∈ gs) :
    t ::ₘ groupsMul (eraseHeadAt gs k) = groupsMul gs := by
  induction gs with
  | nil => simp at hmem
  | cons p gs ih =>
    rcases p with ⟨k2, lh⟩
    rw [List.map_cons, List.nodup_cons] at hnod
    rcases List.mem_cons.mp hmem with he | hm
    · obtain ⟨rfl, rfl⟩ : k = k2 ∧ t :: l2 = lh := by
        rw [Prod.mk.injEq] at he
        exact he
      simp only [eraseHeadAt, List.map_cons]
      rw [if_true]
      have hrest : gs.map (fun p => if p.1 = k then (p.1, p.2.tail) else p) =
          gs := eraseHeadAt_of_not_mem gs k hnod.1
      rw [hrest, groupsMul_cons, groupsMul_cons, ← Multiset.cons_add]
      refine congrArg₂ (· + ·) ?_ rfl
      rw [List.tail_cons, Multiset.cons_coe]
    · have hk2 : k2 ≠ k := by
        intro he2
        subst he2
        exact hnod.1 (List.mem_map.mpr ⟨(k2, t :: l2), hm, rfl⟩)
      simp only [eraseHeadAt, List.map_cons]
      rw [if_neg hk2]
      rw [groupsMul_cons, groupsMul_cons, ← Multiset.add_cons]
      refine congrArg₂ (· + ·) rfl ?_
      exact ih hnod.2 hm

theorem transitions_length : ∀ c ∈ camelotCodes,
    (CAMELOT_TRANSITIONS c).length = 4 := by decide

theorem camelotKeyScore_good (c n : String) (hc : c ∈ camelotCodes) :
    ∃ v, camelotKeyScore c n = some v ∧ 0 ≤ v := by
  have h3lt : 3 < (CAMELOT_TRANSITIONS c).length := by
    rw [transitions_length c hc]
    norm_num
  simp only [camelotKeyScore]
  split_ifs with h1 h2 h3
  · exact ⟨60, rfl, by norm_num⟩
  · exact ⟨50, rfl, by norm_num⟩
  · exact ⟨40, rfl, by norm_num⟩
  · rw [List.get?_eq_get h3lt]
    refine ⟨if n = (CAMELOT_TRANSITIONS c).get ⟨3, h3lt⟩ then 45 else 10,
      rfl, ?_⟩
    split_ifs <;> norm_num

theorem bpmDiffScore_nonneg (d : ℚ) : 0 ≤ bpmDiffScore d := by
  rw [bpmDiffScore]
  split_ifs <;> norm_num

theorem bpmPairScore_nonneg (cb nb : Option ℚ) : 0 ≤ bpmPairScore cb nb := by
  rcases cb with _ | a <;> rcases nb with _ | b <;>
    simp only [bpmPairScore, le_refl]
  split_ifs
  · norm_num
  · exact bpmDiffScore_nonneg _

theorem calcScore_good (c k : String) (hc : c ∈ camelotCodes)
    (cb nb : Option ℚ) :
    ∃ s, calculateCompatibilityScore (some c) (some k) cb nb = some s ∧
      0 ≤ s := by
  have hbp := bpmPairScore_nonneg cb nb
  simp only [calculateCompatibilityScore]
  by_cases he : c = "" ∨ k = ""
  · rw [if_pos he]
    exact ⟨0 + bpmPairScore cb nb, rfl, by omega⟩
  · rw [if_neg he]
    obtain ⟨v, hv, hv0⟩ := camelotKeyScore_good c k hc
    rw [hv]
    exact ⟨v + bpmPairScore cb nb, rfl, by omega⟩

theorem loopScore_other (strategy : String) (cc : Option String)
    (cb : Option ℚ) (k : String) (t : Track) (s : ℤ)
    (hcs : calculateCompatibilityScore cc (some k) cb t.bpm = some s)
    (hps : strategy ≠ "progressive") (hpl : strategy ≠ "plateau") :
    loopCandidateScore strategy cc cb k t = some s := by
  rw [loopCandidateScore, hcs]
  simp only [if_neg hps, Option.map_some']
  rw [if_neg (fun h => hpl h.1)]

theorem loopScore_good (strategy : String) (c : String) (hc : c ∈ camelotCodes)
    (b1 : ℚ) (k : String) (t : Track) :
    ∃ s2, loopCandidateScore strategy (some c) (some b1) k t = some s2 ∧
      0 ≤ s2 := by
  obtain ⟨s, hs, hs0⟩ := calcScore_good c k hc (some b1) t.bpm
  by_cases hp : strategy = "progressive"
  · subst hp
    rw [loopScore_progressive _ _ _ _ _ hs]
    exact ⟨if b1 < t.bpm.getD 0 then s + 10 else s, rfl,
      by split_ifs <;> omega⟩
  · by_cases hl : strategy = "plateau"
    · subst hl
      rw [loopScore_plateau _ _ _ _ _ hs]
      exact ⟨if t.bpm = some b1 ∧ some c = some k then s + 15 else s, rfl,
        by split_ifs <;> omega⟩
    · rw [loopScore_other _ _ _ _ _ _ hs hp hl]
      exact ⟨s, rfl, hs0⟩

theorem scanGroup_spec (strategy : String) (cc : Option String)
    (cb : Option ℚ) (used : List ℕ) (k : String) (l : List Track)
    (hsome : ∀ t ∈ l, ∃ s, loopCandidateScore strategy cc cb k t = some s ∧
      0 ≤ s) :
    ∀ best : ℤ × Option (Track × String),
    ∃ b2, scanGroup strategy cc cb used k l best = some b2 ∧
      (b2.2 = best.2 ∨ ∃ t ∈ l, t.position ∉ used ∧ b2.2 = some (t, k)) ∧
      ((best.2 = none → best.1 = -1) →
        ((∃ t ∈ l, t.position ∉ used) ∨ best.2 ≠ none) → b2.2 ≠ none) ∧
      ((best.2 = none → best.1 = -1) → (b2.2 = none → b2.1 = -1)) := by
  induction l with
  | nil =>
    intro best
    refine ⟨best, rfl, Or.inl rfl, ?_, fun hg => hg⟩
    intro hg hex
    rcases hex with ⟨t, ht, -⟩ | hne
    · exact absurd ht (List.not_mem_nil t)
    · exact hne
  | cons t ts ih =>
    intro best
    have hsome2 : ∀ u ∈ ts, ∃ s,
        loopCandidateScore strategy cc cb k u = some s ∧ 0 ≤ s :=
      fun u hu => hsome u (List.mem_cons_of_mem _ hu)
    rw [scanGroup]
    by_cases hu : t.position ∈ used
    · rw [if_pos hu]
      obtain ⟨b2, hsc, hsound, hprog, hgood⟩ := ih hsome2 best
      refine ⟨b2, hsc, ?_, ?_, hgood⟩
      · rcases hsound with he | ⟨u, hum, hup, hbe⟩
        · exact Or.inl he
        · exact Or.inr ⟨u, List.mem_cons_of_mem _ hum, hup, hbe⟩
      · intro hg hex
        refine hprog hg ?_
        rcases hex with ⟨u, hum, hup⟩ | hne
        · rcases List.mem_cons.mp hum with he | hm
          · subst he
            exact absurd hu hup
          · exact Or.inl ⟨u, hm, hup⟩
        · exact Or.inr hne
    · rw [if_neg hu]
      obtain ⟨s, hs, hs0⟩ := hsome t (List.mem_cons_self _ _)
      rw [hs]
      obtain ⟨b2, hsc, hsound, hprog, hgood⟩ :=
        ih hsome2 (if best.1 < s then (s, some (t, k)) else best)
      have hnb : (best.2 = none → best.1 = -1) →
          (if best.1 < s then (s, some (t, k)) else best).2 ≠ none := by
        intro hg
        by_cases hlt : best.1 < s
        · rw [if_pos hlt]
          exact Option.some_ne_none _
        · rw [if_neg hlt]
          intro hnone
          have hb1 := hg hnone
          omega
      have hngood : (best.2 = none → best.1 = -1) →
          ((if best.1 < s then (s, some (t, k)) else best).2 = none →
            (if best.1 < s then (s, some (t, k)) else best).1 = -1) := by
        intro hg hnone
        exact absurd hnone (hnb hg)
      refine ⟨b2, hsc, ?_, ?_, fun hg => hgood (hngood hg)⟩
      · rcases hsound with he | ⟨u, hum, hup, hbe⟩
        · by_cases hlt : best.1 < s
          · rw [if_pos hlt] at he
            exact Or.inr ⟨t, List.mem_cons_self _ _, hu, he⟩
          · rw [if_neg hlt] at he
            exact Or.inl he
        · exact Or.inr ⟨u, List.mem_cons_of_mem _ hum, hup, hbe⟩
      · intro hg hex
        exact hprog (hngood hg) (Or.inr (hnb hg))

theorem findBest_spec (strategy : String) (cc : Option String)
    (cb : Option ℚ) (used : List ℕ) (gs : List (String × List Track))
    (hsome : ∀ p ∈ gs, ∀ t ∈ p.2,
      ∃ s, loopCandidateScore strategy cc cb p.1 t = some s ∧ 0 ≤ s) :
    ∀ best : ℤ × Option (Track × String),
    ∃ b2, findBestTrack strategy cc cb used gs best = some b2 ∧
      (b2.2 = best.2 ∨
        ∃ p ∈ gs, ∃ t ∈ p.2, t.position ∉ used ∧ b2.2 = some (t, p.1)) ∧
      ((best.2 = none → best.1 = -1) →
        ((∃ p ∈ gs, ∃ t ∈ p.2, t.position ∉ used) ∨ best.2 ≠ none) →
          b2.2 ≠ none) ∧
      ((best.2 = none → best.1 = -1) → (b2.2 = none → b2.1 = -1)) := by
  induction gs with
  | nil =>
    intro best
    refine ⟨best, rfl, Or.inl rfl, ?_, fun hg => hg⟩
    intro hg hex
    rcases hex with ⟨p, hp, -⟩ | hne
    · exact absurd hp (List.not_mem_nil p)
    · exact hne
  | cons p gs ih =>
    intro best
    rcases p with ⟨k, l⟩
    have hsome1 : ∀ t ∈ l, ∃ s,
        loopCandidateScore strategy cc cb k t = some s ∧ 0 ≤ s :=
      fun t ht => hsome (k, l) (List.mem_cons_self _ _) t ht
    have hsome2 : ∀ q ∈ gs, ∀ t ∈ q.2, ∃ s,
        loopCandidateScore strategy cc cb q.1 t = some s ∧ 0 ≤ s :=
      fun q hq => hsome q (List.mem_cons_of_mem _ hq)
    rw [findBestTrack]
    obtain ⟨b1, hb1, hsound1, hprog1, hgood1⟩ :=
      scanGroup_spec strategy cc cb used k l hsome1 best
    rw [hb1]
    obtain ⟨b2, hb2, hsound2, hprog2, hgood2⟩ := ih hsome2 b1
    refine ⟨b2, hb2, ?_, ?_, fun hg => hgood2 (hgood1 hg)⟩
    · rcases hsound2 with he2 | ⟨q, hq, u, hu, hup, hbe⟩
      · rw [he2]
        rcases hsound1 with he1 | ⟨u, hu, hup, hbe⟩
        · exact Or.inl he1
        · exact Or.inr ⟨(k, l), List.mem_cons_self _ _, u, hu, hup, hbe⟩
      · exact Or.inr ⟨q, List.mem_cons_of_mem _ hq, u, hu, hup, hbe⟩
    · intro hg hex
      refine hprog2 (hgood1 hg) ?_
      rcases hex with ⟨q, hq, u, hu, hup⟩ | hne
      · rcases List.mem_cons.mp hq with he | hm
        · subst he
          exact Or.inr (hprog1 hg (Or.inl ⟨u, hu, hup⟩))
        · exact Or.inl ⟨q, hm, u, hu, hup⟩
      · exact Or.inr (hprog1 hg (Or.inr hne))

theorem pos_inj (tracks : List Track)
    (hpos : (tracks.map Track.position).Nodup) :
    ∀ u ∈ tracks, ∀ v ∈ tracks, u.position = v.position → u = v :=
  fun _ hu _ hv he => List.inj_on_of_nodup_map hpos hu hv he

theorem track_count_le_one (tracks : List Track)
    (hpos : (tracks.map Track.position).Nodup) (t : Track) :
    (tracks : Multiset Track).count t ≤ 1 := by
  have hnd : tracks.Nodup := List.Nodup.of_map _ hpos
  rw [Multiset.coe_count]
  exact List.nodup_iff_count_le_one.mp hnd t

theorem erase_pos_ne (tracks : List Track)
    (hpos : (tracks.map Track.position).Nodup) (S : Multiset Track)
    (hSle : S ≤ (tracks : Multiset Track)) (t : Track) (htS : t ∈ S) :
    ∀ u ∈ S.erase t, u.position ≠ t.position := by
  intro u hu hpe
  have huS : u ∈ S := Multiset.mem_of_mem_erase hu
  have hut : u ∈ (tracks : Multiset Track) := Multiset.mem_of_le hSle huS
  have htt : t ∈ (tracks : Multiset Track) := Multiset.mem_of_le hSle htS
  have hue : u = t := pos_inj tracks hpos u (Multiset.mem_coe.mp hut) t
    (Multiset.mem_coe.mp htt) hpe
  subst hue
  have h1 : 0 < (S.erase u).count u := Multiset.count_pos.mpr hu
  rw [Multiset.count_erase_self] at h1
  have hc2 : S.count u ≤ (tracks : Multiset Track).count u :=
    Multiset.le_iff_count.mp hSle u
  have hc3 := track_count_le_one tracks hpos u
  omega

theorem advance_inv (tracks : List Track) (st : ChainState) (t : Track)
    (k : String) (l : List Track) (hinv : ChainInv tracks st)
    (hpos : (tracks.map Track.position).Nodup)
    (hmem : (k, l) ∈ st.groups) (ht : t ∈ l) :
    ChainInv tracks (advanceState st t k) ∧
    (advanceState st t k).chain.length = st.chain.length + 1 := by
  obtain ⟨htot, hmul, hkeys, hused, hcur⟩ := hinv
  have hG := groupsMul_eraseTrackAt st.groups k t l hkeys hmem ht
  have htG : t ∈ groupsMul st.groups :=
    (mem_groupsMul _ t).mpr ⟨(k, l), hmem, ht⟩
  have hGle : groupsMul st.groups ≤ (tracks : Multiset Track) := by
    rw [← hmul]
    exact le_add_self
  have hG' : groupsMul (eraseTrackAt st.groups k t) =
      (groupsMul st.groups).erase t := by
    rw [← hG, Multiset.erase_cons_head]
  refine ⟨⟨htot, ?_, ?_, ?_, ?_⟩, by simp [advanceState]⟩
  · show ((st.chain ++ [t] : List Track) : Multiset Track) +
      groupsMul (eraseTrackAt st.groups k t) = (tracks : Multiset Track)
    rw [← Multiset.coe_add, Multiset.coe_singleton, add_assoc,
      Multiset.singleton_add, hG]
    exact hmul
  · show ((eraseTrackAt st.groups k t).map Prod.fst).Nodup
    rw [keys_eraseTrackAt]
    exact hkeys
  · show ∀ u : Track, u ∈ groupsMul (eraseTrackAt st.groups k t) →
      u.position ∉ st.used ++ [t.position]
    intro u hu hmem2
    rw [hG'] at hu
    have huG : u ∈ groupsMul st.groups := Multiset.mem_of_mem_erase hu
    rcases List.mem_append.mp hmem2 with h1 | h2
    · exact hused u huG h1
    · exact erase_pos_ne tracks hpos (groupsMul st.groups) hGle t htG u hu
        (List.mem_singleton.mp h2)
  · show t ∈ tracks
    exact Multiset.mem_coe.mp (Multiset.mem_of_le hGle htG)

theorem stepState_progress (tracks : List Track) (st : ChainState)
    (strategy : String) (hinv : ChainInv tracks st)
    (hgood : GoodTracks tracks) (hlt : st.chain.length < st.total) :
    ∃ t k l, (k, l) ∈ st.groups ∧ t ∈ l ∧
      stepState strategy st = some (advanceState st t k) := by
  obtain ⟨htot, hmul, hkeys, hused, hcur⟩ := hinv
  obtain ⟨⟨c, hc, hcv⟩, b, hb⟩ := hgood st.current hcur
  have hGne : groupsMul st.groups ≠ 0 := by
    intro h0
    rw [h0, add_zero] at hmul
    have hcard := congrArg Multiset.card hmul
    simp only [Multiset.coe_card] at hcard
    omega
  obtain ⟨u, hu⟩ := Multiset.exists_mem_of_ne_zero hGne
  obtain ⟨p, hp, hup⟩ := (mem_groupsMul _ u).mp hu
  have hsome : ∀ q ∈ st.groups, ∀ w ∈ q.2,
      ∃ s, loopCandidateScore strategy st.current.camelot st.current.bpm
        q.1 w = some s ∧ 0 ≤ s := by
    intro q hq w hw
    rw [hc, hb]
    exact loopScore_good strategy c hcv b q.1 w
  obtain ⟨⟨s2, o2⟩, hfb, hsound, hprog, -⟩ := findBest_spec strategy
    st.current.camelot st.current.bpm st.used st.groups hsome ((-1 : ℤ), none)
  have hone : o2 ≠ none := by
    refine hprog (fun _ => rfl) (Or.inl ⟨p, hp, u, hup, hused u hu⟩)
  rcases hsound with he | ⟨q, hq, w, hw, hwp, hbe⟩
  · exact absurd he hone
  · have hbe2 : o2 = some (w, q.1) := hbe
    refine ⟨w, q.1, q.2, ?_, hw, ?_⟩
    · rw [Prod.mk.eta]
      exact hq
    · rw [stepState, hfb, hbe2]

theorem chain_complete (tracks : List Track) (st : ChainState)
    (hinv : ChainInv tracks st) (hge : ¬st.chain.length < st.total) :
    (st.chain : Multiset Track) = (tracks : Multiset Track) := by
  obtain ⟨htot, hmul, -, -, -⟩ := hinv
  have hcard := congrArg Multiset.card hmul
  simp only [Multiset.card_add, Multiset.coe_card] at hcard
  have hG0 : groupsMul st.groups = 0 := by
    refine Multiset.card_eq_zero.mp ?_
    omega
  rw [hG0, add_zero] at hmul
  exact hmul

theorem buildLoop_perm (tracks : List Track) (strategy : String)
    (hgood : GoodTracks tracks)
    (hpos : (tracks.map Track.position).Nodup) :
    ∀ (fuel : ℕ) (st : ChainState), ChainInv tracks st →
      st.total - st.chain.length ≤ fuel →
      ∃ out, buildChainLoop strategy fuel st = some out ∧
        (out : Multiset Track) = (tracks : Multiset Track) := by
  intro fuel
  induction fuel with
  | zero =>
    intro st hinv hle
    rw [buildChainLoop, if_neg (by omega)]
    exact ⟨st.chain, rfl, chain_complete tracks st hinv (by omega)⟩
  | succ n ih =>
    intro st hinv hle
    rw [buildChainLoop]
    by_cases hlt : st.chain.length < st.total
    · rw [if_pos hlt]
      obtain ⟨t, k, l, hkl, htl, hstep⟩ :=
        stepState_progress tracks st strategy hinv hgood hlt
      rw [hstep]
      obtain ⟨hinv2, hlen2⟩ := advance_inv tracks st t k l hinv hpos hkl htl
      refine ih (advanceState st t k) hinv2 ?_
      have htots : (advanceState st t k).total = st.total := rfl
      omega
    · rw [if_neg hlt]
      exact ⟨st.chain, rfl, chain_complete tracks st hinv hlt⟩

theorem pickPopularHead_spec (gs : List (String × List Track))
    (hne : gs ≠ []) (hnonempty : ∀ p ∈ gs, p.2 ≠ []) :
    ∃ t k l2, pickPopularHead gs = some (t, k) ∧ (k, t :: l2) ∈ gs := by
  cases gs with
  | nil => exact absurd rfl hne
  | cons g rest =>
    have hp := foldl_pick_mem rest g
    set p := rest.foldl
      (fun best p => if best.2.length < p.2.length then p else best) g with hpdef
    have hp2 : p.2 ≠ [] := hnonempty p hp
    rcases p with ⟨k, l⟩
    cases hl : l with
    | nil => exact absurd hl hp2
    | cons t l2 =>
      refine ⟨t, k, l2, ?_, ?_⟩
      · rw [pickPopularHead, pickPopular, ← hpdef, hl]
      · rw [← hl]
        exact hp

theorem initPick_spec (gs : List (String × List Track)) (startKey : Option String)
    (hne : gs ≠ []) (hnonempty : ∀ p ∈ gs, p.2 ≠ []) :
    ∃ t k l2, initPick gs startKey = some (t, k) ∧ (k, t :: l2) ∈ gs := by
  rcases startKey with _ | sk
  · obtain ⟨t, k, l2, hpk, hmem⟩ := pickPopularHead_spec gs hne hnonempty
    exact ⟨t, k, l2, hpk, hmem⟩
  · rw [initPick]
    by_cases hsk : sk = ""
    · rw [if_pos hsk]
      exact pickPopularHead_spec gs hne hnonempty
    · rw [if_neg hsk]
      cases hlk : lookupGroup gs sk with
      | none => exact pickPopularHead_spec gs hne hnonempty
      | some l =>
        have hmem := lookupGroup_mem gs sk l hlk
        have hl2 : l ≠ [] := hnonempty (sk, l) hmem
        cases hl : l with
        | nil => exact absurd hl hl2
        | cons t l2 =>
          refine ⟨t, sk, l2, rfl, ?_⟩
          rw [← hl]
          exact hmem

/-- C1 amended: for every non-empty input list of tracks in which every
track has one of the 24 valid harmonic codes and a recorded BPM and the
track positions are pairwise distinct, build_harmonic_chain terminates
for each strategy in {progressive, plateau, journey} (and any start key)
and returns a permutation of exactly the input tracks: same length, no
duplicates, no omissions. -/
theorem buildHarmonicChain_permutation (tracks : List Track)
    (startKey : Option String) (strategy : String) (hne : tracks ≠ [])
    (hgood : GoodTracks tracks)
    (hpos : (tracks.map Track.position).Nodup)
    (hstrat : strategy ∈ (["progressive", "plateau", "journey"] : List String)) :
    ∃ out, buildHarmonicChain tracks startKey strategy = some out ∧
      out.Perm tracks := by
  have hkeyex : ∀ t ∈ tracks, trackCamelotKey t ≠ none := by
    intro t ht
    obtain ⟨⟨c, hc, hcv⟩, -⟩ := hgood t ht
    have hcne : c ≠ "" := by
      intro he
      subst he
      exact absurd hcv (by decide)
    simp only [trackCamelotKey, hc]
    rw [if_neg hcne]
    exact Option.some_ne_none c
  obtain ⟨hmulG, hkeysG, hneG⟩ := groupByCamelot_facts tracks hkeyex
  have hgsne : groupByCamelot tracks ≠ [] := by
    intro h0
    rw [h0, groupsMul_nil] at hmulG
    exact hne ((Multiset.coe_eq_zero tracks).mp hmulG.symm)
  obtain ⟨t, k, l2, hpk, hmem⟩ :=
    initPick_spec (groupByCamelot tracks) startKey hgsne hneG
  have htG : t ∈ groupsMul (groupByCamelot tracks) :=
    (mem_groupsMul _ t).mpr ⟨(k, t :: l2), hmem, List.mem_cons_self _ _⟩
  have hG := groupsMul_eraseHeadAt (groupByCamelot tracks) k t l2 hkeysG hmem
  have hinv0 : ChainInv tracks
      { total := tracks.length, chain := [t],
        groups := eraseHeadAt (groupByCamelot tracks) k,
        used := [t.position], current := t } := by
    refine ⟨rfl, ?_, ?_, ?_, ?_⟩
    · show ((([t] : List Track)) : Multiset Track) +
        groupsMul (eraseHeadAt (groupByCamelot tracks) k) =
          (tracks : Multiset Track)
      rw [Multiset.coe_singleton, Multiset.singleton_add, hG, hmulG]
    · show ((eraseHeadAt (groupByCamelot tracks) k).map Prod.fst).Nodup
      rw [keys_eraseHeadAt]
      exact hkeysG
    · show ∀ u : Track, u ∈ groupsMul (eraseHeadAt (groupByCamelot tracks) k) →
        u.position ∉ [t.position]
      intro u hu hmm
      have hG' : groupsMul (eraseHeadAt (groupByCamelot tracks) k) =
          (groupsMul (groupByCamelot tracks)).erase t := by
        rw [← hG, Multiset.erase_cons_head]
      rw [hG'] at hu
      exact erase_pos_ne tracks hpos (groupsMul (groupByCamelot tracks))
        (le_of_eq hmulG) t htG u hu (List.mem_singleton.mp hmm)
    · show t ∈ tracks
      rw [hmulG] at htG
      exact Multiset.mem_coe.mp htG
  obtain ⟨out, hout, hmulOut⟩ := buildLoop_perm tracks strategy hgood hpos
    tracks.length
    { total := tracks.length, chain := [t],
      groups := eraseHeadAt (groupByCamelot tracks) k,
      used := [t.position], current := t } hinv0 (by simp)
  refine ⟨out, ?_, Multiset.coe_eq_coe.mp hmulOut⟩
  simp only [buildHarmonicChain, if_neg hne, hpk]
  exact hout

/-- C1 counterexample: on the single-track input whose track has no
harmonic code recorded, build_harmonic_chain does not return a
permutation: the track never enters by_camelot, so the start-track choice
max(by_camelot.keys(), ...) raises ValueError on an empty dict (modelled
as none). With several tracks and one of them keyless, the while loop
instead never terminates: the fallback also only draws from by_camelot. -/
theorem buildHarmonicChain_keyless_ctex :
    buildHarmonicChain [{ position := 0, camelot := none, bpm := some 120 }]
      none "progressive" = none ∧
    ¬∃ out, buildHarmonicChain
      [{ position := 0, camelot := none, bpm := some 120 }] none
      "progressive" = some out ∧
      out.Perm [{ position := 0, camelot := none, bpm := some 120 }] := by
  have h0 : buildHarmonicChain
      [{ position := 0, camelot := none, bpm := some 120 }] none
      "progressive" = none := rfl
  refine ⟨h0, ?_⟩
  rintro ⟨out, hout, -⟩
  rw [h0] at hout
  exact Option.noConfusion hout

/-- C1 witness: a concrete two-track run under the progressive strategy. -/
theorem buildHarmonicChain_permutation_witness :
    ∃ out, buildHarmonicChain
      [{ position := 1, camelot := some "8A", bpm := some 120 },
       { position := 2, camelot := some "9A", bpm := some 122 }] none
      "progressive" = some out ∧
      out.Perm [{ position := 1, camelot := some "8A", bpm := some 120 },
        { position := 2, camelot := some "9A", bpm := some 122 }] :=
  buildHarmonicChain_permutation _ none "progressive" (by decide)
    (by
      intro t ht
      rcases List.mem_cons.mp ht with rfl | ht2
      · exact ⟨⟨"8A", rfl, by decide⟩, ⟨120, rfl⟩⟩
      · rcases List.mem_cons.mp ht2 with rfl | ht3
        · exact ⟨⟨"9A", rfl, by decide⟩, ⟨122, rfl⟩⟩
        · exact absurd ht3 (List.not_mem_nil t))
    (by decide) (by decide)
